import Mathlib

/-!
Verification of the hierarchy-diagram core of the HSE incident-analysis client.

The definitions below are shallow embeddings of the TypeScript source:
* `generateGenericData`, `truncateIncidentName`, `updateDiagram` from
  `src/app/data-access/repositories/incident.repository.ts`;
* `assignDisplayLevels` from
  `src/app/shared/components/hierarchy-diagram/hierarchy-diagram.component.ts`;
* the edit-modal component state and its operations (`updateNodeText`,
  `addNewNode`, `removeNode`, `regenerateDiagram`, `extractLevelNumber`);
* `extractLevelFromAnalysisLevel` from
  `src/app/features/pages/history/history.page.ts`.

JavaScript numbers that only ever hold non-negative integer ids / counts are
modelled as `Nat`; `undefined` optional fields as `Option`; thrown-and-caught
exceptions as explicit error branches.
-/

/-- The `TreeNodeData` interface (`models/incident.model`).  Only the fields
the diagram logic reads or writes are modelled: `key`, `name`, `parent`.
The remaining optional fields (`level`, `category`, `color`, `description`,
`children`) are never consulted by the generator, the depth assigner or the
editor operations. -/
structure TreeNodeData where
  key : Nat
  name : String
  parent : Option Nat := none
deriving Repr, DecidableEq

/-- JavaScript `String.prototype.trim()`: strip whitespace from both ends,
modelled at the character level (Lean's byte-position `String.trim` is
extensionally the same on this data but does not evaluate in the kernel). -/
def trimString (s : String) : String :=
  String.mk
    (((s.data.dropWhile Char.isWhitespace).reverse.dropWhile
      Char.isWhitespace).reverse)

/-- Embedding of `truncateIncidentName` (incident.repository.ts): keep the text when its
length is at most 30, otherwise `substring(0, 27)` (the first 27 characters)
followed by `"..."`. -/
def truncateIncidentName (incident : String) : String :=
  if incident.length ≤ 30 then incident
  else String.mk (incident.data.take 27) ++ "..."

/-- The fixed first-layer category names of `generateGenericData`. -/
def level1Names : List String :=
  ["Human Factor", "Equipment Issue", "Environmental Factor",
   "Process Issue", "Management Factor"]

/-- The fixed second-layer sub-cause names of `generateGenericData`. -/
def level2Names : List String :=
  ["Inadequate Training", "Fatigue/Stress", "Maintenance Issue",
   "Design Flaw", "Unsafe Conditions", "Weather Impact"]

/-- Embedding of `generateGenericData(incident, level)` (incident.repository.ts).
The root gets key 1; the first-layer loop runs `min(5, level + 2)` times with
`keyCounter` continuing from 2; when `level >= 2` the second-layer loop runs
`min(level1Keys.length * 2, 6)` times, with parent
`level1Keys[i % level1Keys.length]`. -/
def generateGenericData (incident : String) (level : Nat) : List TreeNodeData :=
  let root : TreeNodeData := { key := 1, name := truncateIncidentName incident }
  let c1 := min 5 (level + 2)
  let level1 : List TreeNodeData :=
    (List.range c1).map fun i =>
      { key := 2 + i, parent := some 1, name := level1Names.getD i "" }
  let level1Keys := level1.map (·.key)
  let level2 : List TreeNodeData :=
    if 2 ≤ level then
      (List.range (min (level1Keys.length * 2) 6)).map fun i =>
        { key := 2 + c1 + i
          parent := some (level1Keys.getD (i % level1Keys.length) 0)
          name := level2Names.getD i "" }
    else []
  root :: (level1 ++ level2)

/-- Embedding of `generateDiagram` / `fakeApiCall` (incident.repository.ts): the produced
value is exactly `generateGenericData`; the surrounding `Observable` only adds
simulated latency. -/
def generateDiagram (incident : String) (level : Nat) : List TreeNodeData :=
  generateGenericData incident level

/-! ### Analysis-level label extraction

Both call sites run the JavaScript regular expression `/Level (\d+)/` (no
case-insensitivity flag) against the label and `parseInt` the first capture:
scanning left to right, the first position where the literal `"Level "` is
followed by at least one decimal digit wins, and the capture is the maximal
digit run after that prefix. -/

/-- Digit run at the head of the character list (the `\d+` capture). -/
def digitRun (cs : List Char) : List Char :=
  cs.takeWhile Char.isDigit

/-- Value of `parseInt(_, 10)` on a non-empty all-digit capture. -/
def parseDigits (cs : List Char) : Nat :=
  cs.foldl (fun a c => a * 10 + (c.toNat - ('0').toNat)) 0

/-- First match of `/Level (\d+)/`: returns the captured digit run. -/
def findLevelMatch : List Char → Option (List Char)
  | [] => none
  | c :: rest =>
    if (c :: rest).take 6 = "Level ".toList ∧
        (((c :: rest).drop 6).headD 'x').isDigit = true then
      some (digitRun ((c :: rest).drop 6))
    else
      findLevelMatch rest

/-- Embedding of `extractLevelFromAnalysisLevel` (history.page.ts): match `/Level (\d+)/`,
fall back to 1 when there is no match. -/
def extractLevelFromAnalysisLevel (analysisLevel : String) : Nat :=
  match findLevelMatch analysisLevel.data with
  | some ds => parseDigits ds
  | none => 1

/-- Embedding of `extractLevelNumber` (incident-edit-modal component): a falsy argument
(absent or empty label) yields 3; otherwise match `/Level (\d+)/` and fall
back to 3 when there is no match. -/
def extractLevelNumber (analysisLevel : String) : Nat :=
  if analysisLevel = "" then 3
  else
    match findLevelMatch analysisLevel.data with
    | some ds => parseDigits ds
    | none => 3

/-- Modelled from the spec: the spec (section 6) describes the extraction as
matching a decimal number after the word "Level" case-insensitively; this is
that case-insensitive matcher, used only to compare the spec's words with the
case-sensitive code above. -/
def findLevelMatchCI : List Char → Option (List Char)
  | [] => none
  | c :: rest =>
    if ((c :: rest).take 6).map Char.toLower = "level ".toList ∧
        (((c :: rest).drop 6).headD 'x').isDigit = true then
      some (digitRun ((c :: rest).drop 6))
    else
      findLevelMatchCI rest

/-- Modelled from the spec: case-insensitive extraction with a caller-chosen
fallback, following the spec's sentence for the claim under test. -/
def extractLevelCI (analysisLevel : String) (fallback : Nat) : Nat :=
  match findLevelMatchCI analysisLevel.data with
  | some ds => parseDigits ds
  | none => fallback

/-! ### Edit-modal component state and operations -/

/-- The mutable signals of `IncidentEditModalComponent` that the diagram
operations read or write: the node list, the key currently being inline
edited, and the inline error slot. -/
structure EditorState where
  diagramData : List TreeNodeData
  editingNodeId : Option Nat
  diagramError : String
deriving Repr, DecidableEq

/-- Embedding of `canRegenerateDiagram` (edit modal): the trimmed description must be
truthy and longer than 10 characters, and the analysis-level form value must
be truthy (a non-empty label string). -/
def canRegenerateDiagram (description analysisLevel : String) : Bool :=
  !decide (trimString description = "") &&
    decide ((trimString description).length > 10) && !decide (analysisLevel = "")

/-- Embedding of `regenerateDiagram` (edit modal).  The guard failure and the caught
re-thrown validation error both leave `diagramData` untouched and only set
`diagramError`; on success the generated list replaces `diagramData` and the
inline edit is stopped.  The async wrapper and the `isGeneratingDiagram`
spinner flag are not modelled. -/
def regenerateDiagram (description analysisLevel : String) (st : EditorState) :
    EditorState :=
  if !(canRegenerateDiagram description analysisLevel) then
    { st with diagramError := "Please provide incident description and select a level first." }
  else
    -- editingNodeId is cleared and the error slot reset before the attempt
    let st1 : EditorState := { st with diagramError := "", editingNodeId := none }
    let d := trimString description
    let level := extractLevelNumber analysisLevel
    if d = "" ∨ d.length < 10 then
      { st1 with diagramError := "Incident description must be at least 10 characters long." }
    else
      let newDiagramData := generateDiagram d level
      if newDiagramData.length > 0 then
        { st1 with diagramData := newDiagramData }
      else
        { st1 with diagramError := "No diagram data was generated. Please try again." }

/-- Embedding of `updateNodeText` (edit modal): empty-after-trim text only sets the error
slot; otherwise the node with the given key gets the trimmed text as its
name, editing stops and the error slot is cleared. -/
def updateNodeText (nodeKey : Nat) (newText : String) (st : EditorState) :
    EditorState :=
  if newText = "" ∨ trimString newText = "" then
    { st with diagramError := "Node text cannot be empty." }
  else
    { st with
      diagramData := st.diagramData.map fun node =>
        if node.key = nodeKey then { node with name := trimString newText } else node
      editingNodeId := none
      diagramError := "" }

/-- Embedding of `addNewNode` (edit modal): `Math.max(...keys, 0) + 1` as the new key, a
placeholder name, no parent, appended at the end; the new node immediately
enters edit mode. -/
def addNewNode (st : EditorState) : EditorState :=
  let maxKey := (st.diagramData.map (·.key)).foldl max 0
  let newNode : TreeNodeData :=
    { key := maxKey + 1, name := "New Analysis Point", parent := none }
  { st with
    diagramData := st.diagramData ++ [newNode]
    editingNodeId := some newNode.key }

/-- Embedding of `getNodeAndChildren` (edit modal): the key itself followed by the
recursive traversal of each child (nodes whose `parent` equals the key).
The TypeScript recursion is bounded only by the parent structure; here the
recursion depth is bounded by a fuel argument, which never runs out on
acyclic inputs (proved below) because the chain of recursive calls visits
pairwise distinct keys of the list. -/
def getNodeAndChildrenFuel (nodes : List TreeNodeData) :
    Nat → Nat → List Nat
  | 0, nodeKey => [nodeKey]
  | fuel + 1, nodeKey =>
    nodeKey ::
      (nodes.filter (fun node => node.parent = some nodeKey)).flatMap
        (fun child => getNodeAndChildrenFuel nodes fuel child.key)

/-- Embedding of `getNodeAndChildren(nodeKey, nodes)` with the fuel instantiated to the
length of the list. -/
def getNodeAndChildren (nodeKey : Nat) (nodes : List TreeNodeData) : List Nat :=
  getNodeAndChildrenFuel nodes nodes.length nodeKey

/-- Embedding of `removeNode` (edit modal): one atomic update filtering out the key and
all its recursively collected children; editing stops when the removed key
was the one being edited. -/
def removeNode (nodeKey : Nat) (st : EditorState) : EditorState :=
  let nodesToRemove := getNodeAndChildren nodeKey st.diagramData
  { st with
    diagramData :=
      st.diagramData.filter fun node => !(nodesToRemove.contains node.key)
    editingNodeId :=
      if st.editingNodeId = some nodeKey then none else st.editingNodeId }

/-! ### Depth assigner (hierarchy-diagram component) -/

/-- The JavaScript test `!node.parent` of `assignDisplayLevels`: true for an
absent parent and for the (never generated) parent value 0, both falsy. -/
def isFalsyParent (node : TreeNodeData) : Bool :=
  match node.parent with
  | none => true
  | some p => p = 0

/-- Embedding of `assignDisplayLevelRecursive` (hierarchy-diagram component): set the
display level of the given key when it belongs to the node map, then recurse
with level + 1 into every node whose `parent` equals the key, in list order.
The display-level store is modelled as a total function from keys (every map
entry starts at the default 0).  The TypeScript recursion is bounded only by
the parent structure; the fuel bounds the recursion depth and never runs out
on acyclic inputs (proved below). -/
def assignDisplayLevelRecursive (nodes : List TreeNodeData) :
    Nat → Nat → Nat → (Nat → Nat) → (Nat → Nat)
  | 0, _, _, levels => levels
  | fuel + 1, nodeKey, displayLevel, levels =>
    if nodes.any (fun n => n.key = nodeKey) then
      (nodes.filter (fun child => child.parent = some nodeKey)).foldl
        (fun acc child =>
          assignDisplayLevelRecursive nodes fuel child.key (displayLevel + 1) acc)
        (fun j => if j = nodeKey then displayLevel else levels j)
    else levels

/-- The display level each key ends up with after `assignDisplayLevels`:
every entry starts at 0; when a root (first node with a falsy parent) exists
the recursive assignment runs from it with level 0. -/
def displayLevelOf (nodes : List TreeNodeData) (j : Nat) : Nat :=
  match nodes.find? isFalsyParent with
  | some root =>
    assignDisplayLevelRecursive nodes nodes.length root.key 0 (fun _ => 0) j
  | none => 0

/-- Embedding of `assignDisplayLevels` (hierarchy-diagram component): every node of the
input, in order (the insertion order of the node map), paired with its
computed display level. -/
def assignDisplayLevels (nodes : List TreeNodeData) :
    List (TreeNodeData × Nat) :=
  nodes.map fun n => (n, displayLevelOf nodes n.key)

/-! ### Repository `updateDiagram` -/

/-- The persisted `Diagram` entity (`models/incident.model`).  `createdAt`
(a `Date`) is modelled as a millisecond timestamp; the optional `diagramPdf`
blob is never touched by `updateDiagram` and is not modelled. -/
structure Diagram where
  id : Nat
  incidentId : Nat
  title : String
  diagramJson : String
  createdAt : Nat
deriving Repr, DecidableEq

/-- A character escaped as inside `JSON.stringify` output (quote and
backslash; other characters of the names in this app need no escape). -/
def escapeJsonChar (c : Char) : String :=
  if c = '"' then "\\\"" else if c = '\\' then "\\\\" else String.singleton c

/-- Value of `JSON.stringify` on one `TreeNodeData` record: the `key` and `name`
properties always, the `parent` property only when it is defined
(`JSON.stringify` drops `undefined` properties). -/
def stringifyTreeNode (n : TreeNodeData) : String :=
  "\x7b\"key\":" ++ toString n.key ++
    ",\"name\":\"" ++ String.join (n.name.data.map escapeJsonChar) ++ "\"" ++
    (match n.parent with
     | some p => ",\"parent\":" ++ toString p
     | none => "") ++ "\x7d"

/-- Value of `JSON.stringify` on a `TreeNodeData` array. -/
def stringifyTreeNodes (nodes : List TreeNodeData) : String :=
  "[" ++ String.intercalate "," (nodes.map stringifyTreeNode) ++ "]"

/-- Embedding of `updateDiagram(diagramId, title?, diagramData?)` (incident.repository.ts)
acting on the in-memory `diagrams` store: find the diagram by id (`findIndex`,
throwing when absent), then merge an update object that carries `title` only
when the argument is truthy (defined and non-empty) and `diagramJson` only
when `diagramData` is defined.  Returns the updated store together with the
updated record. -/
def updateDiagram (store : List Diagram) (diagramId : Nat)
    (title : Option String) (diagramData : Option (List TreeNodeData)) :
    Except String (List Diagram × Diagram) :=
  match store.findIdx? (fun d => d.id = diagramId) with
  | none => .error "Diagram not found"
  | some index =>
    match store[index]? with
    | none => .error "Diagram not found" -- unreachable: findIdx? indices are in range
    | some old =>
      let updated : Diagram :=
        { old with
          title :=
            match title with
            | some t => if t = "" then old.title else t
            | none => old.title
          diagramJson :=
            match diagramData with
            | some nodes => stringifyTreeNodes nodes
            | none => old.diagramJson }
      .ok (store.set index updated, updated)

/-- A one-element diagram store used by the C10 witness. -/
def sampleDiagramStore : List Diagram :=
  [{ id := 5, incidentId := 7, title := "Old", diagramJson := "x",
     createdAt := 100 }]


/-! ### Tree reachability infrastructure

`childStep nodes a b` is one parent edge of the flat list; `InSubtree` is its
reflexive-transitive closure, the mathematical description of the subtree the
editor and the depth assigner traverse.  Acyclicity (section 3 of the spec)
is witnessed by a rank function that strictly increases along parent edges. -/

/-- One parent edge: `b` is the key of a node of the list whose `parent`
reference is `a`. -/
def childStep (nodes : List TreeNodeData) (a b : Nat) : Prop :=
  ∃ n, n ∈ nodes ∧ n.key = b ∧ n.parent = some a

/-- Relation stating that `j` lies in the subtree rooted at `k`: reachable from `k` along parent
edges. -/
def InSubtree (nodes : List TreeNodeData) (k j : Nat) : Prop :=
  Relation.ReflTransGen (childStep nodes) k j

/-- Key uniqueness invariant of a diagram (spec section 3). -/
def UniqueKeys (nodes : List TreeNodeData) : Prop :=
  (nodes.map (·.key)).Nodup

/-- Acyclicity invariant, witnessed by a rank function that strictly
increases along every parent edge. -/
def Ranked (nodes : List TreeNodeData) (rank : Nat → Nat) : Prop :=
  ∀ n ∈ nodes, ∀ p, n.parent = some p → rank p < rank n.key

theorem key_inj {nodes : List TreeNodeData} (h : UniqueKeys nodes)
    {n m : TreeNodeData} (hn : n ∈ nodes) (hm : m ∈ nodes)
    (hk : n.key = m.key) : n = m := by
  induction nodes with
  | nil => simp at hn
  | cons a l ih =>
    have h' : a.key ∉ l.map (·.key) ∧ (l.map (·.key)).Nodup := by
      simpa [UniqueKeys] using h
    rcases List.mem_cons.mp hn with rfl | hn' <;>
      rcases List.mem_cons.mp hm with rfl | hm'
    · rfl
    · exact absurd (by rw [hk]; exact List.mem_map_of_mem _ hm') h'.1
    · exact absurd (by rw [← hk]; exact List.mem_map_of_mem _ hn') h'.1
    · exact ih h'.2 hn' hm'

theorem childStep_rank {nodes : List TreeNodeData} {rank : Nat → Nat}
    (h : Ranked nodes rank) {a b : Nat} (hs : childStep nodes a b) :
    rank a < rank b := by
  obtain ⟨n, hn, rfl, hp⟩ := hs
  exact h n hn a hp

theorem inSubtree_rank {nodes : List TreeNodeData} {rank : Nat → Nat}
    (h : Ranked nodes rank) {a j : Nat} (hs : InSubtree nodes a j) :
    rank a ≤ rank j := by
  induction hs with
  | refl => exact le_rfl
  | tail _ h2 ih => exact ih.trans (childStep_rank h h2).le

theorem childStep_parent_unique {nodes : List TreeNodeData}
    (hkeys : UniqueKeys nodes) {a a' b : Nat}
    (h1 : childStep nodes a b) (h2 : childStep nodes a' b) : a = a' := by
  obtain ⟨n, hn, hkn, hpn⟩ := h1
  obtain ⟨m, hm, hkm, hpm⟩ := h2
  have heq : n = m := key_inj hkeys hn hm (hkn.trans hkm.symm)
  subst heq
  rw [hpn] at hpm
  exact Option.some_inj.mp hpm

theorem inSubtree_meet {nodes : List TreeNodeData} (hkeys : UniqueKeys nodes)
    {a j : Nat} (ha : InSubtree nodes a j) :
    ∀ {b}, InSubtree nodes b j → InSubtree nodes a b ∨ InSubtree nodes b a := by
  induction ha with
  | refl => exact fun hb => Or.inr hb
  | tail h1 h2 ih =>
    intro b hb
    rcases Relation.ReflTransGen.cases_tail hb with rfl | ⟨m, hbm, hmj⟩
    · exact Or.inl (h1.tail h2)
    · have hmc := childStep_parent_unique hkeys hmj h2
      subst hmc
      exact ih hbm

theorem sibling_subtrees_disjoint {nodes : List TreeNodeData}
    {rank : Nat → Nat} (hkeys : UniqueKeys nodes) (hrank : Ranked nodes rank)
    {k c1 c2 j : Nat} (h1 : childStep nodes k c1) (h2 : childStep nodes k c2)
    (hne : c1 ≠ c2) (hj1 : InSubtree nodes c1 j) (hj2 : InSubtree nodes c2 j) :
    False := by
  rcases inSubtree_meet hkeys hj1 hj2 with h | h
  · rcases Relation.ReflTransGen.cases_tail h with heq | ⟨m, hm, hstep⟩
    · exact hne heq.symm
    · have hmk : m = k := childStep_parent_unique hkeys hstep h2
      subst hmk
      have hle := inSubtree_rank hrank hm
      have hlt := childStep_rank hrank h1
      omega
  · rcases Relation.ReflTransGen.cases_tail h with heq | ⟨m, hm, hstep⟩
    · exact hne heq
    · have hmk : m = k := childStep_parent_unique hkeys hstep h1
      subst hmk
      have hle := inSubtree_rank hrank hm
      have hlt := childStep_rank hrank h2
      omega

/-- The number of keys of the list whose rank strictly exceeds the rank of
`a`: the decreasing measure showing that the traversal fuel suffices. -/
def countAbove (rank : Nat → Nat) (nodes : List TreeNodeData) (a : Nat) : Nat :=
  ((nodes.map (·.key)).filter (fun b => rank a < rank b)).length

theorem countAbove_lt_of_childStep {nodes : List TreeNodeData}
    {rank : Nat → Nat} (hkeys : UniqueKeys nodes) (hrank : Ranked nodes rank)
    {a b : Nat} (h : childStep nodes a b) :
    countAbove rank nodes b < countAbove rank nodes a := by
  obtain ⟨n, hn, rfl, hp⟩ := h
  have hbmem : n.key ∈ nodes.map (·.key) := List.mem_map_of_mem _ hn
  have hab : rank a < rank n.key := hrank n hn a hp
  have hsub :
      (n.key :: (nodes.map (·.key)).filter (fun x => rank n.key < rank x)) ⊆
        (nodes.map (·.key)).filter (fun x => rank a < rank x) := by
    intro x hx
    rcases List.mem_cons.mp hx with rfl | hx
    · exact List.mem_filter.mpr ⟨hbmem, by simpa using hab⟩
    · have hx' := List.mem_filter.mp hx
      refine List.mem_filter.mpr ⟨hx'.1, ?_⟩
      have := hx'.2
      simp only [decide_eq_true_eq] at this ⊢
      omega
  have hnodup :
      (n.key :: (nodes.map (·.key)).filter (fun x => rank n.key < rank x)).Nodup := by
    refine List.nodup_cons.mpr ⟨?_, hkeys.filter _⟩
    intro hmem
    have := (List.mem_filter.mp hmem).2
    simp at this
  have hlen := (List.subperm_of_subset hnodup hsub).length_le
  simp only [List.length_cons] at hlen
  simpa [countAbove] using hlen

theorem countAbove_lt_length {nodes : List TreeNodeData} {rank : Nat → Nat}
    (hkeys : UniqueKeys nodes) {k : Nat} (hk : k ∈ nodes.map (·.key)) :
    countAbove rank nodes k < nodes.length := by
  have hsub :
      (k :: (nodes.map (·.key)).filter (fun x => rank k < rank x)) ⊆
        nodes.map (·.key) := by
    intro x hx
    rcases List.mem_cons.mp hx with rfl | hx
    · exact hk
    · exact (List.mem_filter.mp hx).1
  have hnodup :
      (k :: (nodes.map (·.key)).filter (fun x => rank k < rank x)).Nodup := by
    refine List.nodup_cons.mpr ⟨?_, hkeys.filter _⟩
    intro hmem
    have := (List.mem_filter.mp hmem).2
    simp at this
  have hlen := (List.subperm_of_subset hnodup hsub).length_le
  simp only [List.length_cons, List.length_map] at hlen
  simpa [countAbove] using hlen

theorem mem_getNodeAndChildrenFuel_sound {nodes : List TreeNodeData} :
    ∀ {fuel a j : Nat}, j ∈ getNodeAndChildrenFuel nodes fuel a →
      InSubtree nodes a j := by
  intro fuel
  induction fuel with
  | zero =>
    intro a j hj
    simp only [getNodeAndChildrenFuel, List.mem_singleton] at hj
    subst hj
    exact .refl
  | succ f ih =>
    intro a j hj
    simp only [getNodeAndChildrenFuel, List.mem_cons, List.mem_flatMap] at hj
    rcases hj with rfl | ⟨c, hc, hj⟩
    · exact .refl
    · have hc' := List.mem_filter.mp hc
      have hstep : childStep nodes a c.key :=
        ⟨c, hc'.1, rfl, by simpa using hc'.2⟩
      exact Relation.ReflTransGen.head hstep (ih hj)

theorem mem_getNodeAndChildrenFuel_complete {nodes : List TreeNodeData}
    {rank : Nat → Nat} (hkeys : UniqueKeys nodes) (hrank : Ranked nodes rank)
    {a j : Nat} (h : InSubtree nodes a j) :
    ∀ fuel, countAbove rank nodes a < fuel →
      j ∈ getNodeAndChildrenFuel nodes fuel a := by
  induction h using Relation.ReflTransGen.head_induction_on with
  | refl =>
    intro fuel _
    cases fuel <;> simp [getNodeAndChildrenFuel]
  | head hstep _htail ih =>
    intro fuel hfuel
    obtain ⟨f, rfl⟩ : ∃ f, fuel = f + 1 := ⟨fuel - 1, by omega⟩
    obtain ⟨n, hn, hkey, hp⟩ := hstep
    simp only [getNodeAndChildrenFuel, List.mem_cons, List.mem_flatMap]
    refine Or.inr ⟨n, List.mem_filter.mpr ⟨hn, by simp [hp]⟩, ?_⟩
    rw [hkey]
    refine ih f ?_
    have := countAbove_lt_of_childStep hkeys hrank ⟨n, hn, hkey, hp⟩
    omega

theorem mem_getNodeAndChildren_iff {nodes : List TreeNodeData}
    {rank : Nat → Nat} (hkeys : UniqueKeys nodes) (hrank : Ranked nodes rank)
    {k : Nat} (hk : k ∈ nodes.map (·.key)) {j : Nat} :
    j ∈ getNodeAndChildren k nodes ↔ InSubtree nodes k j :=
  ⟨mem_getNodeAndChildrenFuel_sound,
   fun h =>
    mem_getNodeAndChildrenFuel_complete hkeys hrank h nodes.length
      (countAbove_lt_length hkeys hk)⟩

theorem length_filter_not_add_countP (l : List TreeNodeData)
    (p : TreeNodeData → Bool) :
    (l.filter (fun a => !p a)).length + l.countP p = l.length := by
  induction l with
  | nil => simp
  | cons a l ih =>
    by_cases h : p a <;> simp [List.filter_cons, List.countP_cons, h] <;> omega

/-- **C3**: for every node list forming a tree (unique keys, acyclic via a
rank function) and every key `k` present in it, `removeNode k` removes
exactly `k` and every node transitively reachable from `k` via parent chains
(the traversal set coincides with `InSubtree`), in one atomic update: the
remaining list is a sublist of the original whose members are exactly the
nodes outside the subtree of `k`, the size drops by the subtree size, and
when the removed key was the one being edited, edit mode is cleared. -/
theorem claim_C3_removeNode_cascade (st : EditorState) (k : Nat)
    (rank : Nat → Nat) (hkeys : UniqueKeys st.diagramData)
    (hrank : Ranked st.diagramData rank)
    (hk : k ∈ st.diagramData.map (·.key)) :
    (∀ j, j ∈ getNodeAndChildren k st.diagramData ↔
      InSubtree st.diagramData k j)
    ∧ (∀ n ∈ st.diagramData,
        (n ∈ (removeNode k st).diagramData ↔
          ¬ InSubtree st.diagramData k n.key))
    ∧ (removeNode k st).diagramData.Sublist st.diagramData
    ∧ (removeNode k st).diagramData.length +
        st.diagramData.countP
          (fun n => (getNodeAndChildren k st.diagramData).contains n.key) =
        st.diagramData.length
    ∧ (st.editingNodeId = some k → (removeNode k st).editingNodeId = none) := by
  refine ⟨fun j => mem_getNodeAndChildren_iff hkeys hrank hk, ?_, ?_, ?_, ?_⟩
  · intro n hn
    simp only [removeNode, List.mem_filter, Bool.not_eq_true', List.contains_eq_any_beq,
      List.any_eq_false, beq_iff_eq, hn, true_and]
    constructor
    · intro h hsub
      exact h n.key ((mem_getNodeAndChildren_iff hkeys hrank hk).mpr hsub) rfl
    · intro h x hx heq
      subst heq
      exact h ((mem_getNodeAndChildren_iff hkeys hrank hk).mp hx)
  · exact List.filter_sublist _
  · exact length_filter_not_add_countP st.diagramData
      (fun n => (getNodeAndChildren k st.diagramData).contains n.key)
  · intro h
    simp [removeNode, h]

/-- Witness for C3 at a concrete four-node tree: the hypotheses hold and,
since node 2 was being edited, removing it clears edit mode. -/
theorem claim_C3_removeNode_cascade_witness :
    (removeNode 2
      { diagramData :=
          [{ key := 1, name := "r" }, { key := 2, name := "a", parent := some 1 },
           { key := 3, name := "b", parent := some 2 },
           { key := 4, name := "c", parent := some 1 }]
        editingNodeId := some 2, diagramError := "" }).editingNodeId = none := by
  refine (claim_C3_removeNode_cascade _ 2 id (by unfold UniqueKeys; decide) ?_
    (by decide)).2.2.2.2 rfl
  intro n hn p hp
  fin_cases hn <;> simp_all <;> omega

/-! ### Correctness of the recursive display-level assignment -/

theorem foldl_apply_eq {α : Type} (g : (Nat → Nat) → α → (Nat → Nat))
    (j : Nat) :
    ∀ (cs : List α) (acc : Nat → Nat),
      (∀ c ∈ cs, ∀ s : Nat → Nat, g s c j = s j) →
      (cs.foldl g acc) j = acc j := by
  intro cs
  induction cs with
  | nil => intro acc _; rfl
  | cons c cs ih =>
    intro acc h
    rw [List.foldl_cons, ih _ fun x hx s => h x (List.mem_cons_of_mem _ hx) s,
      h c (List.mem_cons_self _ _)]

/-- Frame property: the recursive assignment never writes a key outside the
subtree of its start key. -/
theorem assignLevels_frame {nodes : List TreeNodeData} :
    ∀ {fuel k d : Nat} {levels : Nat → Nat} {j : Nat},
      ¬ InSubtree nodes k j →
      assignDisplayLevelRecursive nodes fuel k d levels j = levels j := by
  intro fuel
  induction fuel with
  | zero => intro k d levels j _; rfl
  | succ f ih =>
    intro k d levels j h
    simp only [assignDisplayLevelRecursive]
    by_cases hmem : nodes.any (fun n => n.key = k) = true
    · simp only [hmem, if_true]
      have hstep : ∀ c ∈ nodes.filter (fun child => child.parent = some k),
          ∀ s : Nat → Nat,
            assignDisplayLevelRecursive nodes f c.key (d + 1) s j = s j := by
        intro c hc s
        have hc' := List.mem_filter.mp hc
        refine ih fun hsub => h ?_
        exact Relation.ReflTransGen.head ⟨c, hc'.1, rfl, by simpa using hc'.2⟩ hsub
      rw [foldl_apply_eq _ _ _ _ hstep]
      have hjk : j ≠ k := fun heq => h (heq ▸ Relation.ReflTransGen.refl)
      simp [hjk]
    · simp [hmem]

/-- The start key of the recursive assignment receives exactly the level it
was called with (its subtrees, which come later, cannot reach back to it on
ranked input). -/
theorem assignLevels_self {nodes : List TreeNodeData} {rank : Nat → Nat}
    (hrank : Ranked nodes rank) {f k d : Nat} {levels : Nat → Nat}
    (hk : k ∈ nodes.map (·.key)) :
    assignDisplayLevelRecursive nodes (f + 1) k d levels k = d := by
  have hany : nodes.any (fun n => n.key = k) = true := by
    obtain ⟨n, hn, he⟩ := List.mem_map.mp hk
    simp only [List.any_eq_true]
    exact ⟨n, hn, by simpa using he⟩
  simp only [assignDisplayLevelRecursive, hany, if_true]
  have hstep : ∀ c ∈ nodes.filter (fun child => child.parent = some k),
      ∀ s : Nat → Nat,
        assignDisplayLevelRecursive nodes f c.key (d + 1) s k = s k := by
    intro c hc s
    have hc' := List.mem_filter.mp hc
    refine assignLevels_frame fun hsub => ?_
    have hlt := childStep_rank hrank
      (⟨c, hc'.1, rfl, by simpa using hc'.2⟩ : childStep nodes k c.key)
    have hle := inSubtree_rank hrank hsub
    omega
  rw [foldl_apply_eq _ _ _ _ hstep]
  simp

/-- One-step unfolding of the recursive assignment at positive fuel when the
start key is present. -/
theorem assignDisplayLevelRecursive_succ (nodes : List TreeNodeData)
    (f k d : Nat) (levels : Nat → Nat)
    (hany : nodes.any (fun n => n.key = k) = true) :
    assignDisplayLevelRecursive nodes (f + 1) k d levels =
      (nodes.filter (fun child => child.parent = some k)).foldl
        (fun acc child =>
          assignDisplayLevelRecursive nodes f child.key (d + 1) acc)
        (fun j => if j = k then d else levels j) := by
  simp only [assignDisplayLevelRecursive, hany, if_true]

/-- Variant of `assignLevels_self` for any positive fuel. -/
theorem assignLevels_self_pos {nodes : List TreeNodeData} {rank : Nat → Nat}
    (hrank : Ranked nodes rank) {fuel k d : Nat} {levels : Nat → Nat}
    (hf : 0 < fuel) (hk : k ∈ nodes.map (·.key)) :
    assignDisplayLevelRecursive nodes fuel k d levels k = d := by
  obtain ⟨f, rfl⟩ : ∃ f, fuel = f + 1 := ⟨fuel - 1, by omega⟩
  exact assignLevels_self hrank hk

/-- Every node reached by the recursive assignment ends up one level below
its parent: the heart of the depth-monotonicity property.  Stated for any
fuel large enough (measured by `countAbove`). -/
theorem assignLevels_parent_link {nodes : List TreeNodeData}
    {rank : Nat → Nat} (hkeys : UniqueKeys nodes) (hrank : Ranked nodes rank) :
    ∀ (fuel k d : Nat) (levels : Nat → Nat),
      countAbove rank nodes k < fuel → k ∈ nodes.map (·.key) →
      ∀ n ∈ nodes, InSubtree nodes k n.key → n.key ≠ k →
        ∃ p, n.parent = some p ∧
          assignDisplayLevelRecursive nodes fuel k d levels n.key =
            assignDisplayLevelRecursive nodes fuel k d levels p + 1 := by
  intro fuel
  induction fuel with
  | zero =>
    intro k d levels hfuel
    exact absurd hfuel (Nat.not_lt_zero _)
  | succ f ih =>
    intro k d levels hfuel hk n hn hsub hne
    rcases Relation.ReflTransGen.cases_head hsub with heq | ⟨c, hstep, htail⟩
    · exact absurd heq.symm hne
    obtain ⟨c0, hc0mem, hc0key, hc0par⟩ := hstep
    subst hc0key
    have hany : nodes.any (fun x => x.key = k) = true := by
      obtain ⟨m, hm, he⟩ := List.mem_map.mp hk
      simp only [List.any_eq_true]
      exact ⟨m, hm, by simpa using he⟩
    have hc0cs : c0 ∈ nodes.filter (fun child => child.parent = some k) :=
      List.mem_filter.mpr ⟨hc0mem, by simp [hc0par]⟩
    have hcsstep : ∀ c ∈ nodes.filter (fun child => child.parent = some k),
        childStep nodes k c.key := fun c hc =>
      ⟨c, (List.mem_filter.mp hc).1, rfl, by
        simpa using (List.mem_filter.mp hc).2⟩
    obtain ⟨s, t, hsplit⟩ := List.append_of_mem hc0cs
    have hcsnodup :
        ((nodes.filter (fun child => child.parent = some k)).map (·.key)).Nodup :=
      hkeys.sublist ((List.filter_sublist _).map _)
    have htne : ∀ c ∈ t, c.key ≠ c0.key := by
      intro c hc heq
      rw [hsplit] at hcsnodup
      simp only [List.map_append, List.map_cons, List.nodup_append,
        List.nodup_cons] at hcsnodup
      exact hcsnodup.2.1.1 (heq ▸ List.mem_map_of_mem _ hc)
    have hct : ∀ c ∈ t, c ∈ nodes.filter (fun child => child.parent = some k) := by
      intro c hc
      rw [hsplit]
      exact List.mem_append.mpr (Or.inr (List.mem_cons_of_mem _ hc))
    have hcs' : ∀ c ∈ s, c ∈ nodes.filter (fun child => child.parent = some k) := by
      intro c hc
      rw [hsplit]
      exact List.mem_append.mpr (Or.inl hc)
    have hkc0 : childStep nodes k c0.key := ⟨c0, hc0mem, rfl, hc0par⟩
    have hfuel0 : countAbove rank nodes c0.key < f := by
      have := countAbove_lt_of_childStep hkeys hrank hkc0
      omega
    have hfpos : 0 < f := by omega
    have hval : ∀ j : Nat,
        assignDisplayLevelRecursive nodes (f + 1) k d levels j =
          (t.foldl
            (fun acc child =>
              assignDisplayLevelRecursive nodes f child.key (d + 1) acc)
            (assignDisplayLevelRecursive nodes f c0.key (d + 1)
              (s.foldl
                (fun acc child =>
                  assignDisplayLevelRecursive nodes f child.key (d + 1) acc)
                (fun j => if j = k then d else levels j)))) j := by
      intro j
      rw [assignDisplayLevelRecursive_succ nodes f k d levels hany, hsplit,
        List.foldl_append, List.foldl_cons]
    have hframe_t : ∀ {j0 : Nat}, InSubtree nodes c0.key j0 →
        ∀ c ∈ t, ∀ s' : Nat → Nat,
          assignDisplayLevelRecursive nodes f c.key (d + 1) s' j0 = s' j0 := by
      intro j0 hj0 c hc s'
      refine assignLevels_frame fun hsub' => ?_
      exact sibling_subtrees_disjoint hkeys hrank (hcsstep c (hct c hc)) hkc0
        (htne c hc) hsub' hj0
    have hframe_k : ∀ c ∈ nodes.filter (fun child => child.parent = some k),
        ∀ s' : Nat → Nat,
          assignDisplayLevelRecursive nodes f c.key (d + 1) s' k = s' k := by
      intro c hc s'
      refine assignLevels_frame fun hsub' => ?_
      have hlt := childStep_rank hrank (hcsstep c hc)
      have hle := inSubtree_rank hrank hsub'
      omega
    have hacc1_k :
        (s.foldl
          (fun acc child =>
            assignDisplayLevelRecursive nodes f child.key (d + 1) acc)
          (fun j => if j = k then d else levels j)) k = d := by
      rw [foldl_apply_eq _ _ _ _ fun c hc s' => hframe_k c (hcs' c hc) s']
      simp
    have hmid_k :
        (assignDisplayLevelRecursive nodes f c0.key (d + 1)
          (s.foldl
            (fun acc child =>
              assignDisplayLevelRecursive nodes f child.key (d + 1) acc)
            (fun j => if j = k then d else levels j))) k = d := by
      rw [assignLevels_frame (fun hsub' => by
        have hlt := childStep_rank hrank hkc0
        have hle := inSubtree_rank hrank hsub'
        omega)]
      exact hacc1_k
    have hout_k : assignDisplayLevelRecursive nodes (f + 1) k d levels k = d := by
      rw [hval k,
        foldl_apply_eq _ _ _ _ fun c hc s' => hframe_k c (hct c hc) s']
      exact hmid_k
    by_cases hcase : n.key = c0.key
    · -- n is the first-step child itself: parent k, level d + 1
      have hn_eq : n = c0 := key_inj hkeys hn hc0mem hcase
      refine ⟨k, by rw [hn_eq]; exact hc0par, ?_⟩
      have hout_n :
          assignDisplayLevelRecursive nodes (f + 1) k d levels n.key = d + 1 := by
        rw [hval n.key,
          foldl_apply_eq _ _ _ _ fun c hc s' =>
            hframe_t (by rw [hcase] ; exact .refl : InSubtree nodes c0.key n.key) c hc s']
        rw [hcase]
        exact assignLevels_self_pos hrank hfpos (List.mem_map_of_mem _ hc0mem)
      rw [hout_n, hout_k]
    · -- n lies deeper inside the subtree of c0: use the induction hypothesis
      obtain ⟨p, hp, hmidlink⟩ := ih c0.key (d + 1)
        (s.foldl
          (fun acc child =>
            assignDisplayLevelRecursive nodes f child.key (d + 1) acc)
          (fun j => if j = k then d else levels j))
        hfuel0 (List.mem_map_of_mem _ hc0mem) n hn htail hcase
      have hc0p : InSubtree nodes c0.key p := by
        rcases Relation.ReflTransGen.cases_tail htail with heq | ⟨m, hm, hstep2⟩
        · exact absurd heq hcase
        · obtain ⟨n', hn', hkn', hpn'⟩ := hstep2
          obtain rfl := key_inj hkeys hn' hn hkn'
          rw [hp] at hpn'
          obtain rfl := Option.some_inj.mp hpn'
          exact hm
      refine ⟨p, hp, ?_⟩
      rw [hval n.key,
        foldl_apply_eq _ _ _ _ fun c hc s' => hframe_t htail c hc s',
        hval p,
        foldl_apply_eq _ _ _ _ fun c hc s' => hframe_t hc0p c hc s']
      exact hmidlink

/-- With positive parent references and a unique parentless node, the
`find` of `assignDisplayLevels` locates exactly that node. -/
theorem find_root_eq {nodes : List TreeNodeData} (r : TreeNodeData)
    (hr : r ∈ nodes) (hroot : r.parent = none)
    (hpos : ∀ n ∈ nodes, ∀ p, n.parent = some p → 0 < p)
    (huniq : ∀ n ∈ nodes, n.parent = none → n = r) :
    nodes.find? isFalsyParent = some r := by
  cases hfind : nodes.find? isFalsyParent with
  | none =>
    have := List.find?_eq_none.mp hfind r hr
    simp [isFalsyParent, hroot] at this
  | some x =>
    have hxmem := List.mem_of_find?_eq_some hfind
    have hxtrue := List.find?_some hfind
    have hxnone : x.parent = none := by
      cases hxp : x.parent with
      | none => rfl
      | some p =>
        simp only [isFalsyParent, hxp, decide_eq_true_eq] at hxtrue
        have := hpos x hxmem p hxp
        omega
    rw [huniq x hxmem hxnone]

/-- **C2**: for any `TreeNode` list satisfying the tree invariants (unique
keys, a unique parentless root, acyclicity via a rank function; parent
references positive so that the JavaScript falsy test coincides with
"parentless"), the depth assignment keeps every node, gives the root depth
0, gives every node reachable from the root its parent's depth plus 1, and
leaves every unreachable node at the default depth 0 without repairing or
removing it. -/
theorem claim_C2_assignDisplayLevels_depths (nodes : List TreeNodeData)
    (r : TreeNodeData) (rank : Nat → Nat)
    (hkeys : UniqueKeys nodes) (hrank : Ranked nodes rank)
    (hpos : ∀ n ∈ nodes, ∀ p, n.parent = some p → 0 < p)
    (hr : r ∈ nodes) (hroot : r.parent = none)
    (huniq : ∀ n ∈ nodes, n.parent = none → n = r) :
    (assignDisplayLevels nodes).map Prod.fst = nodes
    ∧ (r, 0) ∈ assignDisplayLevels nodes
    ∧ displayLevelOf nodes r.key = 0
    ∧ (∀ n ∈ nodes, InSubtree nodes r.key n.key →
        ∀ p, n.parent = some p →
          displayLevelOf nodes n.key = displayLevelOf nodes p + 1)
    ∧ (∀ n ∈ nodes, ¬ InSubtree nodes r.key n.key →
        displayLevelOf nodes n.key = 0) := by
  have hfind := find_root_eq r hr hroot hpos huniq
  have hfuel : countAbove rank nodes r.key < nodes.length :=
    countAbove_lt_length hkeys (List.mem_map_of_mem _ hr)
  have hlen : 0 < nodes.length := List.length_pos_of_mem hr
  have hlevel_r : displayLevelOf nodes r.key = 0 := by
    simp only [displayLevelOf, hfind]
    exact assignLevels_self_pos hrank hlen (List.mem_map_of_mem _ hr)
  refine ⟨?_, ?_, hlevel_r, ?_, ?_⟩
  · simp only [assignDisplayLevels, List.map_map]
    exact List.map_id' nodes
  · have hmem : (r, displayLevelOf nodes r.key) ∈ assignDisplayLevels nodes :=
      List.mem_map_of_mem _ hr
    rwa [hlevel_r] at hmem
  · intro n hn hsub p hp
    have hnkey : n.key ≠ r.key := by
      intro heq
      have hnr := key_inj hkeys hn hr heq
      rw [hnr, hroot] at hp
      cases hp
    obtain ⟨p', hp', heq⟩ := assignLevels_parent_link hkeys hrank nodes.length
      r.key 0 (fun _ => 0) hfuel (List.mem_map_of_mem _ hr) n hn hsub hnkey
    rw [hp] at hp'
    obtain rfl := Option.some_inj.mp hp'
    simp only [displayLevelOf, hfind]
    exact heq
  · intro n _hn hsub
    simp only [displayLevelOf, hfind]
    exact assignLevels_frame hsub

/-- Witness for C2 at a concrete list with a dangling fragment: the
invariant hypotheses hold and the root is assigned display level 0. -/
theorem claim_C2_assignDisplayLevels_depths_witness :
    (({ key := 1, name := "r", parent := none } : TreeNodeData), 0) ∈
      assignDisplayLevels
        [{ key := 1, name := "r" }, { key := 2, name := "a", parent := some 1 },
         { key := 9, name := "dangling", parent := some 7 }] := by
  refine (claim_C2_assignDisplayLevels_depths _
    { key := 1, name := "r", parent := none } id
    (by unfold UniqueKeys; decide) ?_ ?_ (by decide) rfl (by decide)).2.1
  · intro n hn p hp
    fin_cases hn <;> simp_all <;> omega
  · intro n hn p hp
    fin_cases hn <;> simp_all <;> omega

/-- **C1**: for every incident text and level in `[1,5]`, the generated list
is the root (key 1, no parent) followed by `min(5, level+2)` first-layer
nodes with parent 1 and strictly increasing keys starting at 2, followed
(only when `level ≥ 2`) by `min(firstLayerCount * 2, 6)` second-layer nodes
whose `i`-th member has parent `firstLayerKeys[i % firstLayerCount]`;
exactly one node of the output has no parent.  At level 3 the total count is
`1 + 5 + 6 = 12` (see the witness). -/
theorem claim_C1_generate_structure (incident : String) (level : Nat)
    (h1 : 1 ≤ level) (h5 : level ≤ 5) :
    (generateGenericData incident level).length =
      1 + min 5 (level + 2) +
        (if 2 ≤ level then min (min 5 (level + 2) * 2) 6 else 0)
    ∧ (generateGenericData incident level).head? =
        some { key := 1, name := truncateIncidentName incident, parent := none }
    ∧ (∀ i, i < min 5 (level + 2) →
        ∃ n, (generateGenericData incident level)[1 + i]? = some n
          ∧ n.key = 2 + i ∧ n.parent = some 1)
    ∧ (2 ≤ level → ∀ i, i < min (min 5 (level + 2) * 2) 6 →
        ∃ n, (generateGenericData incident level)[1 + min 5 (level + 2) + i]? =
            some n
          ∧ n.key = 2 + min 5 (level + 2) + i
          ∧ n.parent = some (2 + i % min 5 (level + 2)))
    ∧ (generateGenericData incident level).countP
        (fun n => n.parent = none) = 1 := by
  have hc1 : (0 : Nat) < min 5 (level + 2) := by omega
  refine ⟨?_, ?_, ?_, ?_, ?_⟩
  · by_cases h2 : 2 ≤ level <;> simp [generateGenericData, h2] <;> omega
  · simp [generateGenericData]
  · intro i hi
    refine ⟨{ key := 2 + i, parent := some 1, name := level1Names.getD i "" },
      ?_, rfl, rfl⟩
    simp only [generateGenericData, Nat.add_comm 1 i, List.getElem?_cons_succ]
    rw [List.getElem?_append]
    simp [List.getElem?_range, hi]
  · intro h2 i hi
    refine ⟨{ key := 2 + min 5 (level + 2) + i
              parent := some (2 + i % min 5 (level + 2))
              name := level2Names.getD i "" }, ?_, rfl, rfl⟩
    simp only [generateGenericData, List.map_map]
    have harr : 1 + min 5 (level + 2) + i = (min 5 (level + 2) + i) + 1 := by
      omega
    rw [harr, List.getElem?_cons_succ, List.getElem?_append,
      if_neg (by simp only [List.length_map, List.length_range]; omega)]
    simp only [List.length_map, List.length_range, Nat.add_sub_cancel_left,
      h2, if_true]
    have hmod : i % min 5 (level + 2) < min 5 (level + 2) :=
      Nat.mod_lt _ hc1
    rw [List.getElem?_map]
    simp [List.getElem?_range, List.getD, hi, hmod, Function.comp]
  · by_cases h2 : 2 ≤ level <;>
      simp [generateGenericData, List.countP_cons, List.countP_append,
        List.countP_map, h2, Function.comp]

/-- Witness for C1 at the spec scenario: level 3 is in range and the output
has `1 + 5 + 6 = 12` nodes. -/
theorem claim_C1_generate_structure_witness :
    (generateGenericData "Worker slipped on wet floor" 3).length = 12 := by
  have h := (claim_C1_generate_structure "Worker slipped on wet floor" 3
    (by decide) (by decide)).1
  rw [h]
  decide

/-- Counterexample for C4.  The claim says regeneration fails exactly when
the trimmed description is shorter than 10 characters or the level is falsy;
a trimmed description of length exactly 10 with a truthy level should then
succeed and replace the node list with the generator output.  The code's
guard requires length strictly greater than 10, so the call fails, leaves
the node list empty and sets the inline error instead. -/
theorem claim_C4_regenerate_validation_counterexample :
    (trimString "abcdefghij").length = 10
    ∧ "Level 3 - Moderate Analysis" ≠ ""
    ∧ (regenerateDiagram "abcdefghij" "Level 3 - Moderate Analysis"
        { diagramData := [], editingNodeId := none,
          diagramError := "" }).diagramData = []
    ∧ generateDiagram (trimString "abcdefghij")
        (extractLevelNumber "Level 3 - Moderate Analysis") ≠ []
    ∧ (regenerateDiagram "abcdefghij" "Level 3 - Moderate Analysis"
        { diagramData := [], editingNodeId := none,
          diagramError := "" }).diagramError ≠ "" := by
  refine ⟨by decide, by decide, by decide, ?_, by decide⟩
  decide

/-- **C4 (amended)**: `regenerate(description, level)` fails exactly when the
trimmed description has length at most 10 (not `< 10` as claimed: the guard
requires strictly more than 10 characters) or the level label is falsy; on
failure the node list is unchanged and the inline error is set; otherwise it
invokes the generator on the trimmed description and extracted numeric level,
replaces the node list with the generated output, clears edit mode and the
error slot. -/
theorem claim_C4_regenerate_validation (description analysisLevel : String)
    (st : EditorState) :
    ((trimString description).length ≤ 10 ∨ analysisLevel = "" →
      (regenerateDiagram description analysisLevel st).diagramData =
        st.diagramData
      ∧ (regenerateDiagram description analysisLevel st).diagramError ≠ "")
    ∧ (¬ ((trimString description).length ≤ 10 ∨ analysisLevel = "") →
      (regenerateDiagram description analysisLevel st).diagramData =
        generateDiagram (trimString description)
          (extractLevelNumber analysisLevel)
      ∧ (regenerateDiagram description analysisLevel st).editingNodeId = none
      ∧ (regenerateDiagram description analysisLevel st).diagramError = "") := by
  constructor
  · intro h
    have hcan : canRegenerateDiagram description analysisLevel = false := by
      rcases h with h | h
      · have h10 : decide ((trimString description).length > 10) = false :=
          decide_eq_false (by omega)
        simp [canRegenerateDiagram, h10]
      · simp [canRegenerateDiagram, h]
    simp [regenerateDiagram, hcan]
  · intro h
    push_neg at h
    obtain ⟨hlen, hlvl⟩ := h
    have hne : trimString description ≠ "" := by
      intro he
      rw [he] at hlen
      simp [String.length] at hlen
    have hcan : canRegenerateDiagram description analysisLevel = true := by
      simp only [canRegenerateDiagram, Bool.and_eq_true, Bool.not_eq_true',
        decide_eq_false_iff_not, decide_eq_true_eq]
      exact ⟨⟨hne, by omega⟩, hlvl⟩
    have hinner : ¬ (trimString description = "" ∨
        (trimString description).length < 10) := by
      rintro (he | hl)
      · exact hne he
      · omega
    have hgen : (generateDiagram (trimString description)
        (extractLevelNumber analysisLevel)).length > 0 := by
      simp [generateDiagram, generateGenericData]
    simp [regenerateDiagram, hcan, hinner, hgen]

/-- Witness for C4 at a 27-character description and a truthy level label:
regeneration succeeds, stops editing and the node list becomes the generator
output. -/
theorem claim_C4_regenerate_validation_witness :
    (regenerateDiagram "Worker slipped on the floor" "Level 2 - Low Priority"
      { diagramData := [], editingNodeId := some 1,
        diagramError := "" }).editingNodeId = none :=
  ((claim_C4_regenerate_validation "Worker slipped on the floor"
    "Level 2 - Low Priority" _).2 (by decide)).2.1

/-- **C5**: `rename(key, newName)` with a name empty after trimming only sets
the inline error — the node list and the editing state are untouched; with a
name non-empty after trimming it replaces exactly that node's name (with the
trimmed text) in place, leaves every other node unchanged, and exits edit
mode. -/
theorem claim_C5_rename_validation (nodeKey : Nat) (newText : String)
    (st : EditorState) :
    (trimString newText = "" →
      updateNodeText nodeKey newText st =
        { st with diagramError := "Node text cannot be empty." })
    ∧ (trimString newText ≠ "" →
      (updateNodeText nodeKey newText st).diagramData.length =
        st.diagramData.length
      ∧ (∀ i : Nat, ∀ n n',
          st.diagramData[i]? = some n →
          (updateNodeText nodeKey newText st).diagramData[i]? = some n' →
          (n.key = nodeKey → n' = { n with name := trimString newText })
          ∧ (n.key ≠ nodeKey → n' = n))
      ∧ (updateNodeText nodeKey newText st).editingNodeId = none
      ∧ (updateNodeText nodeKey newText st).diagramError = "") := by
  constructor
  · intro h
    simp [updateNodeText, h]
  · intro h
    have hcond : ¬ (newText = "" ∨ trimString newText = "") := by
      rintro (he | he)
      · exact h (by rw [he]; rfl)
      · exact h he
    refine ⟨?_, ?_, ?_, ?_⟩
    · simp [updateNodeText, hcond]
    · intro i n n' hn hn'
      simp only [updateNodeText, if_neg hcond, List.getElem?_map, hn,
        Option.map_some'] at hn'
      constructor
      · intro hk
        rw [if_pos hk] at hn'
        exact (Option.some_inj.mp hn').symm
      · intro hk
        rw [if_neg hk] at hn'
        exact (Option.some_inj.mp hn').symm
    · simp [updateNodeText, hcond]
    · simp [updateNodeText, hcond]

/-- Witness for C5: renaming node 2 to a blank string fails and leaves the
node list unchanged. -/
theorem claim_C5_rename_validation_witness :
    (updateNodeText 2 "   "
      { diagramData :=
          [{ key := 1, name := "r" },
           { key := 2, name := "a", parent := some 1 }]
        editingNodeId := some 2, diagramError := "" }).diagramData =
      [{ key := 1, name := "r" },
       { key := 2, name := "a", parent := some 1 }] := by
  rw [(claim_C5_rename_validation 2 "   " _).1 (by decide)]

/-- **C6**: the truncation boundary of the generator root name: a text of
length at most 30 is kept unmodified, a longer text is replaced by its first
27 characters followed by the 3-character `"..."`, for a root name of length
exactly 30, at every level. -/
theorem claim_C6_truncation_boundary (incident : String) (level : Nat) :
    (incident.length ≤ 30 →
      (generateGenericData incident level).head? =
        some { key := 1, name := incident, parent := none })
    ∧ (30 < incident.length →
      (generateGenericData incident level).head? =
        some { key := 1
               name := String.mk (incident.data.take 27) ++ "..."
               parent := none }
      ∧ (String.mk (incident.data.take 27) ++ "...").length = 30) := by
  constructor
  · intro h
    simp [generateGenericData, truncateIncidentName, h]
  · intro h
    refine ⟨?_, ?_⟩
    · simp [generateGenericData, truncateIncidentName, Nat.not_le_of_lt h]
    · have hlen : incident.data.length = incident.length := rfl
      simp only [String.length_append]
      show (incident.data.take 27).length + 3 = 30
      rw [List.length_take]
      omega

/-- Witness for C6: 29 `x`s survive unmodified; 31 `x`s become 27 `x`s plus
the ellipsis, a name of length 30. -/
theorem claim_C6_truncation_boundary_witness :
    (generateGenericData
        "xxxxxxxxxxxxxxxxxxxxxxxxxxxxx" 1).head? =
      some { key := 1, name := "xxxxxxxxxxxxxxxxxxxxxxxxxxxxx",
             parent := none }
    ∧ (generateGenericData
        "xxxxxxxxxxxxxxxxxxxxxxxxxxxxxxx" 1).head? =
      some { key := 1, name := "xxxxxxxxxxxxxxxxxxxxxxxxxxx...",
             parent := none } := by
  constructor
  · exact (claim_C6_truncation_boundary "xxxxxxxxxxxxxxxxxxxxxxxxxxxxx" 1).1
      (by decide)
  · have h := ((claim_C6_truncation_boundary
      "xxxxxxxxxxxxxxxxxxxxxxxxxxxxxxx" 1).2 (by decide)).1
    rw [h]
    decide

theorem foldl_max_init_le (l : List Nat) : ∀ a : Nat, a ≤ l.foldl max a := by
  induction l with
  | nil => intro a; exact le_rfl
  | cons x l ih =>
    intro a
    exact le_trans (le_max_left a x) (ih (max a x))

theorem mem_le_foldl_max (l : List Nat) : ∀ a, ∀ x ∈ l, x ≤ l.foldl max a := by
  induction l with
  | nil => simp
  | cons y l ih =>
    intro a x hx
    rcases List.mem_cons.mp hx with rfl | hx
    · exact le_trans (le_max_right a x) (foldl_max_init_le l (max a x))
    · exact ih (max a y) x hx

theorem foldl_max_mem (l : List Nat) : ∀ a, l.foldl max a = a ∨ l.foldl max a ∈ l := by
  induction l with
  | nil => intro a; exact Or.inl rfl
  | cons y l ih =>
    intro a
    rcases ih (max a y) with h | h
    · rcases max_cases a y with ⟨h1, _⟩ | ⟨h1, _⟩
      · left
        rw [List.foldl_cons, h, h1]
      · right
        rw [List.foldl_cons, h, h1]
        exact List.mem_cons_self _ _
    · right
      exact List.mem_cons_of_mem _ h

/-- **C7**: `addNode()` appends exactly one node with key
`max(existingKeys) + 1` (1 on an empty list), placeholder name, no parent —
creating a second parentless node whenever a root is already present —
modifies no existing node, and puts the new node in edit mode. -/
theorem claim_C7_addNode (st : EditorState) :
    (addNewNode st).diagramData =
      st.diagramData ++
        [{ key := (st.diagramData.map (·.key)).foldl max 0 + 1
           name := "New Analysis Point", parent := none }]
    ∧ (addNewNode st).editingNodeId =
        some ((st.diagramData.map (·.key)).foldl max 0 + 1)
    ∧ (st.diagramData = [] →
        (st.diagramData.map (·.key)).foldl max 0 + 1 = 1)
    ∧ (∀ n ∈ st.diagramData,
        n.key ≤ (st.diagramData.map (·.key)).foldl max 0)
    ∧ (st.diagramData ≠ [] →
        (st.diagramData.map (·.key)).foldl max 0 ∈
          st.diagramData.map (·.key))
    ∧ (addNewNode st).diagramData.countP (fun n => n.parent = none) =
        st.diagramData.countP (fun n => n.parent = none) + 1 := by
  refine ⟨rfl, rfl, ?_, ?_, ?_, ?_⟩
  · intro h
    rw [h]
    rfl
  · intro n hn
    exact mem_le_foldl_max _ 0 n.key (List.mem_map_of_mem _ hn)
  · intro h
    rcases foldl_max_mem (st.diagramData.map (·.key)) 0 with hz | hm
    · rw [hz]
      obtain ⟨m, hmem⟩ := List.exists_mem_of_ne_nil st.diagramData h
      have hle := mem_le_foldl_max (st.diagramData.map (·.key)) 0 m.key
        (List.mem_map_of_mem _ hmem)
      rw [hz] at hle
      have : m.key = 0 := by omega
      rw [← this]
      exact List.mem_map_of_mem _ hmem
    · exact hm
  · simp [addNewNode, List.countP_append, List.countP_cons]

/-- Witness for C7: adding to a one-root list yields a second parentless
node with key 2 (the previous maximum 1, plus 1). -/
theorem claim_C7_addNode_witness :
    (addNewNode
      { diagramData := [{ key := 1, name := "r" }]
        editingNodeId := none, diagramError := "" }).diagramData =
      [{ key := 1, name := "r" },
       { key := 2, name := "New Analysis Point", parent := none }] := by
  rw [(claim_C7_addNode _).1]
  decide

/-- **C8**: determinism of generation — the output is a function of the
text and level arguments alone; two calls with equal arguments produce
identical node lists. -/
theorem claim_C8_generate_deterministic (t1 t2 : String) (l1 l2 : Nat)
    (ht : t1 = t2) (hl : l1 = l2) :
    generateGenericData t1 l1 = generateGenericData t2 l2 := by
  rw [ht, hl]

/-- Witness for C8 at the spec scenario arguments. -/
theorem claim_C8_generate_deterministic_witness :
    generateGenericData "Worker slipped on wet floor" 3 =
      generateGenericData "Worker slipped on wet floor" 3 :=
  claim_C8_generate_deterministic _ _ _ _ rfl rfl

/-- Counterexample for C9.  The claim (following the spec) says the numeric
level is recovered by matching the word "Level" case-insensitively; the
regular expression in both call sites is `/Level (\d+)/` with no
case-insensitivity flag.  On the label `"level 2 - Low Priority"` the
case-insensitive reading yields 2, but both extractions miss the lowercase
word and return their fallbacks (1 in the history view, 3 in the editor). -/
theorem claim_C9_level_extraction_counterexample :
    extractLevelCI "level 2 - Low Priority" 1 = 2
    ∧ extractLevelCI "level 2 - Low Priority" 3 = 2
    ∧ extractLevelFromAnalysisLevel "level 2 - Low Priority" = 1
    ∧ extractLevelNumber "level 2 - Low Priority" = 3 := by
  refine ⟨by decide, by decide, by decide, by decide⟩

/-- **C9 (amended)**: the numeric level is recovered by pattern-matching a
decimal number after the literal `"Level "` case-sensitively; whenever that
pattern matches, both call sites agree on the parsed number, and for every
label with no match the history view returns the fallback 1 while the editor
returns the fallback 3. -/
theorem claim_C9_level_extraction (s : String) :
    (∀ ds, findLevelMatch s.data = some ds →
      extractLevelFromAnalysisLevel s = parseDigits ds
      ∧ extractLevelNumber s = parseDigits ds)
    ∧ (findLevelMatch s.data = none →
      extractLevelFromAnalysisLevel s = 1 ∧ extractLevelNumber s = 3) := by
  constructor
  · intro ds hds
    have hs : s ≠ "" := by
      intro he
      rw [he] at hds
      simp [findLevelMatch] at hds
    constructor
    · simp [extractLevelFromAnalysisLevel, hds]
    · simp [extractLevelNumber, hs, hds]
  · intro hnone
    constructor
    · simp [extractLevelFromAnalysisLevel, hnone]
    · by_cases hs : s = ""
      · simp [extractLevelNumber, hs]
      · simp [extractLevelNumber, hs, hnone]

/-- Witness for C9: on the canonical label `"Level 4 - Detailed Analysis"`
the pattern matches the digit 4 and both extractions return 4. -/
theorem claim_C9_level_extraction_witness :
    extractLevelFromAnalysisLevel "Level 4 - Detailed Analysis" = 4
    ∧ extractLevelNumber "Level 4 - Detailed Analysis" = 4 := by
  have h := (claim_C9_level_extraction "Level 4 - Detailed Analysis").1
    (['4'] : List Char) (by decide)
  exact ⟨by rw [h.1]; decide, by rw [h.2]; decide⟩

/-- Helper for C10: a successful `findIdx?` returns an in-range index whose
element satisfies the predicate. -/
theorem findIdx?_spec {α : Type} (p : α → Bool) (l : List α) (i : Nat)
    (h : l.findIdx? p = some i) :
    ∃ hlt : i < l.length, p (l.get ⟨i, hlt⟩) = true := by
  rw [List.findIdx?_eq_some_iff_findIdx_eq] at h
  obtain ⟨hlt, hfi⟩ := h
  refine ⟨hlt, ?_⟩
  subst hfi
  exact List.findIdx_getElem

/-- **C10**: `updateDiagram(diagramId, title?, nodes?)` fails with an error
and changes nothing when no stored diagram has the given id; on success it
replaces exactly the found diagram, never touching its `id`, `incidentId`
or `createdAt`, keeping the stored title when the title argument is absent
or empty and keeping the stored `diagramJson` when the nodes argument is
absent; every other stored diagram is unchanged. -/
theorem claim_C10_updateDiagram_frame (store : List Diagram)
    (diagramId : Nat) (title : Option String)
    (diagramData : Option (List TreeNodeData)) :
    ((∀ d ∈ store, d.id ≠ diagramId) →
      updateDiagram store diagramId title diagramData =
        .error "Diagram not found")
    ∧ (∀ store' upd,
        updateDiagram store diagramId title diagramData = .ok (store', upd) →
        ∃ i, ∃ hlt : i < store.length,
          (store.get ⟨i, hlt⟩).id = diagramId
          ∧ store' = store.set i upd
          ∧ upd.id = (store.get ⟨i, hlt⟩).id
          ∧ upd.incidentId = (store.get ⟨i, hlt⟩).incidentId
          ∧ upd.createdAt = (store.get ⟨i, hlt⟩).createdAt
          ∧ (title = none ∨ title = some "" →
              upd.title = (store.get ⟨i, hlt⟩).title)
          ∧ (diagramData = none →
              upd.diagramJson = (store.get ⟨i, hlt⟩).diagramJson)
          ∧ (∀ j, j ≠ i → store'[j]? = store[j]?)) := by
  constructor
  · intro h
    have hidx : store.findIdx? (fun d => d.id = diagramId) = none := by
      rw [List.findIdx?_eq_none_iff]
      intro d hd
      simpa using h d hd
    simp [updateDiagram, hidx]
  · intro store' upd hok
    cases hidx : store.findIdx? (fun d => d.id = diagramId) with
    | none =>
      unfold updateDiagram at hok
      simp [hidx] at hok
    | some index =>
      obtain ⟨hlt, hp⟩ := findIdx?_spec _ _ _ hidx
      have hget : store[index]? = some (store.get ⟨index, hlt⟩) :=
        List.getElem?_eq_getElem hlt
      unfold updateDiagram at hok
      simp only [hidx, hget, Except.ok.injEq, Prod.mk.injEq] at hok
      obtain ⟨hstore', hupd⟩ := hok
      refine ⟨index, hlt, by simpa using hp,
        by rw [← hupd]; exact hstore'.symm, ?_, ?_, ?_, ?_, ?_, ?_⟩
      · rw [← hupd]
      · rw [← hupd]
      · rw [← hupd]
      · rintro (rfl | rfl)
        · rw [← hupd]
        · rw [← hupd]
          rfl
      · rintro rfl
        rw [← hupd]
      · intro j hj
        rw [← hstore']
        exact List.getElem?_set_ne hj.symm

/-- Witness for C10: a store holding only diagram id 5 rejects an update of
diagram id 9 with the not-found error. -/
theorem claim_C10_updateDiagram_frame_witness :
    (∀ d ∈ sampleDiagramStore, d.id ≠ 9)
    ∧ updateDiagram sampleDiagramStore 9 (some "New") none =
        .error "Diagram not found" :=
  ⟨by decide,
   (claim_C10_updateDiagram_frame _ 9 (some "New") none).1 (by decide)⟩
